import Mathlib

/-!
Shallow embedding of `src/NeuralNet.py` (a small feed-forward neural-network
library built on numpy) and proofs about it.

Modelling conventions:
* numpy column vectors of shape `(n, 1)` are modelled by `Vec`: an explicit
  length together with an entry function; numpy 2-D arrays of shape `(r, c)`
  are modelled by `Mat`.  Shapes are carried explicitly, exactly as a numpy
  array carries its `shape` attribute; `W.shape[1]` is `W.c`.
* floating-point scalars are modelled by `ℚ` (exact arithmetic); the
  transcendental `np.exp` has no computable counterpart, so every function
  that needs it takes an abstract `e : ℚ → ℚ` parameter standing for the
  numeric exponential.  None of the proved properties depend on its values.
* `exit()` (a fatal abort that the caller cannot continue past) is modelled by
  the `Except String` error path, which every driver function propagates.
* the `np.random.randn` draws made by `FullyConnectedLayer.__init__` are taken
  as explicit parameters (`W0`, `B0`); the layer forces their shapes to
  `(N, N_p)` and `(N, 1)` just as numpy does.
-/

namespace NNFS

/-- A numpy column vector of shape `(n, 1)`: a length and an entry function. -/
structure Vec where
  n : ℕ
  entry : ℕ → ℚ

/-- A numpy 2-D array of shape `(r, c)`. -/
structure Mat where
  r : ℕ
  c : ℕ
  entry : ℕ → ℕ → ℚ

/-- The all-zero column vector `np.zeros((n, 1))`. -/
def Vec.zeros (n : ℕ) : Vec := ⟨n, fun _ => 0⟩

/-- The all-zero matrix `np.zeros((r, c))`. -/
def Mat.zeros (r c : ℕ) : Mat := ⟨r, c, fun _ _ => 0⟩

/-- Elementwise vector addition (numpy `+` on two `(n,1)` arrays). -/
def Vec.add (u v : Vec) : Vec := ⟨u.n, fun i => u.entry i + v.entry i⟩

/-- Elementwise vector subtraction (numpy `-`). -/
def Vec.sub (u v : Vec) : Vec := ⟨u.n, fun i => u.entry i - v.entry i⟩

/-- Elementwise vector product (`np.multiply`). -/
def Vec.mul (u v : Vec) : Vec := ⟨u.n, fun i => u.entry i * v.entry i⟩

/-- Scalar times vector. -/
def Vec.scale (q : ℚ) (v : Vec) : Vec := ⟨v.n, fun i => q * v.entry i⟩

/-- Vector divided entrywise by a natural number (numpy `v / m`). -/
def Vec.divNat (v : Vec) (m : ℕ) : Vec := ⟨v.n, fun i => v.entry i / (m : ℚ)⟩

/-- In-place zeroing `v[:] = 0`: same shape, all entries zero. -/
def Vec.setZero (v : Vec) : Vec := ⟨v.n, fun _ => 0⟩

/-- Elementwise matrix addition (models the in-place `+=` on equal shapes;
the shape is the left operand's, as the mutated array keeps its shape). -/
def Mat.add (a b : Mat) : Mat := ⟨a.r, a.c, fun i j => a.entry i j + b.entry i j⟩

/-- Elementwise matrix subtraction (models the in-place `-=`). -/
def Mat.sub (a b : Mat) : Mat := ⟨a.r, a.c, fun i j => a.entry i j - b.entry i j⟩

/-- Scalar times matrix. -/
def Mat.scale (q : ℚ) (a : Mat) : Mat := ⟨a.r, a.c, fun i j => q * a.entry i j⟩

/-- Matrix divided entrywise by a natural number. -/
def Mat.divNat (a : Mat) (m : ℕ) : Mat := ⟨a.r, a.c, fun i j => a.entry i j / (m : ℚ)⟩

/-- In-place zeroing `A[:] = 0`: same shape, all entries zero. -/
def Mat.setZero (a : Mat) : Mat := ⟨a.r, a.c, fun _ _ => 0⟩

/-- Matrix transpose (`A.transpose()`). -/
def Mat.transpose (a : Mat) : Mat := ⟨a.c, a.r, fun i j => a.entry j i⟩

/-- Matrix–vector product `np.dot(W, x)` for `W : (r, c)` and `x : (c, 1)`. -/
def Mat.mulVec (a : Mat) (x : Vec) : Vec :=
  ⟨a.r, fun i => ∑ k ∈ Finset.range a.c, a.entry i k * x.entry k⟩

/-- Outer product `np.dot(g, a.transpose())` of a `(n,1)` by a `(1,m)` array. -/
def Vec.outer (g a : Vec) : Mat := ⟨g.n, a.n, fun i j => g.entry i * a.entry j⟩

/-! ## The FullyConnectedLayer class -/

/-- State of a `FullyConnectedLayer` object: weights, biases, their current
partial derivatives, the per-mini-batch running sums, the cached weighted sums
`Z`, and the cached previous-layer activations. -/
structure FullyConnectedLayer where
  N : ℕ
  N_p : ℕ
  W : Mat
  dW : Mat
  B : Vec
  dB : Vec
  Z : Vec
  dW_sum : Mat
  dB_sum : Vec
  previous_layer_activations : Vec

/-- Constructor `FullyConnectedLayer.__init__(layer_size, previous_layer_size)`.
The random draws `np.random.randn(N, N_p)/10` and `np.random.randn(N, 1)/10`
are supplied as the entry functions `W0` and `B0`; as in numpy the created
arrays have shapes `(N, N_p)` and `(N, 1)` regardless. -/
def FullyConnectedLayer.init (layer_size previous_layer_size : ℕ)
    (W0 : ℕ → ℕ → ℚ) (B0 : ℕ → ℚ) : FullyConnectedLayer :=
  { N := layer_size
    N_p := previous_layer_size
    W := ⟨layer_size, previous_layer_size, W0⟩
    dW := Mat.zeros layer_size previous_layer_size
    B := ⟨layer_size, B0⟩
    dB := Vec.zeros layer_size
    Z := Vec.zeros layer_size
    dW_sum := Mat.zeros layer_size previous_layer_size
    dB_sum := Vec.zeros layer_size
    previous_layer_activations := Vec.zeros previous_layer_size }

/-- Method `FullyConnectedLayer.forward_propagation`.  If the weight matrix's
column count differs from the input's row count the program prints the
diagnostic and calls `exit()`, modelled by the `Except` error path; otherwise
it stores `W·x + B` in `Z`, caches the input, and returns the weighted sum
together with the updated object state. -/
def FullyConnectedLayer.forward_propagation (st : FullyConnectedLayer) (x : Vec) :
    Except String (Vec × FullyConnectedLayer) :=
  if st.W.c ≠ x.n then
    .error "mismatch between weight matrix columns and activation rows"
  else
    let z := Vec.add (Mat.mulVec st.W x) st.B
    .ok (z, { st with Z := z, previous_layer_activations := x })

/-- Method `FullyConnectedLayer.backward_propagation`: sets `dW` to the outer
product of the upstream gradient with the cached activations, accumulates it
into `dW_sum`, sets `dB` to the upstream gradient and accumulates it into
`dB_sum`, and returns `Wᵗ·upstream_gradient` with the updated state. -/
def FullyConnectedLayer.backward_propagation (st : FullyConnectedLayer)
    (upstream_gradient : Vec) : Vec × FullyConnectedLayer :=
  let dW' := Vec.outer upstream_gradient st.previous_layer_activations
  (Mat.mulVec st.W.transpose upstream_gradient,
   { st with
      dW := dW'
      dW_sum := st.dW_sum.add dW'
      dB := upstream_gradient
      dB_sum := st.dB_sum.add upstream_gradient })

/-- Method `FullyConnectedLayer.update_parameters`: gradient-descent step
`W -= eta*(dW_sum / mini_batch_size)`, `B -= eta*(dB_sum / mini_batch_size)`,
then the running sums are reset in place to zero. -/
def FullyConnectedLayer.update_parameters (st : FullyConnectedLayer)
    (mini_batch_size : ℕ) (eta : ℚ) : FullyConnectedLayer :=
  { st with
      W := st.W.sub (Mat.scale eta (st.dW_sum.divNat mini_batch_size))
      B := st.B.sub (Vec.scale eta (st.dB_sum.divNat mini_batch_size))
      dW_sum := st.dW_sum.setZero
      dB_sum := st.dB_sum.setZero }

/-! ## The activation-layer classes -/

/-- State of a `SigmoidLayer` object: its size and cached activation vector. -/
structure SigmoidLayer where
  N : ℕ
  activation : Vec

/-- Method `SigmoidLayer.forward_propagation`: elementwise logistic function
`1 / (1 + np.exp(-z))`; the result is cached and returned.  `e` stands for the
numeric `np.exp`. -/
def SigmoidLayer.forward_propagation (e : ℚ → ℚ) (st : SigmoidLayer)
    (weighted_sum : Vec) : Vec × SigmoidLayer :=
  let a : Vec := ⟨weighted_sum.n, fun i => 1 / (1 + e (-(weighted_sum.entry i)))⟩
  (a, { st with activation := a })

/-- Method `SigmoidLayer.backward_propagation`:
`np.multiply(activation*(1-activation), upstream_gradient)`. -/
def SigmoidLayer.backward_propagation (st : SigmoidLayer)
    (upstream_gradient : Vec) : Vec :=
  let sigmoid_prime : Vec :=
    ⟨st.activation.n, fun i => st.activation.entry i * (1 - st.activation.entry i)⟩
  Vec.mul sigmoid_prime upstream_gradient

/-- State of a `ReluLayer` object. -/
structure ReluLayer where
  N : ℕ
  activation : Vec

/-- Method `ReluLayer.forward_propagation`: `np.maximum(weighted_sum, 0)`
elementwise; the result is cached and returned. -/
def ReluLayer.forward_propagation (st : ReluLayer) (weighted_sum : Vec) :
    Vec × ReluLayer :=
  let a : Vec := ⟨weighted_sum.n, fun i => max (weighted_sum.entry i) 0⟩
  (a, { st with activation := a })

/-- Method `ReluLayer.backward_propagation`: `relu_prime = (activation > 0)`
is a boolean mask (1 where strictly positive, 0 elsewhere) and the result is
`np.multiply(relu_prime, upstream_gradient)`. -/
def ReluLayer.backward_propagation (st : ReluLayer) (upstream_gradient : Vec) : Vec :=
  let relu_prime : Vec :=
    ⟨st.activation.n, fun i => if 0 < st.activation.entry i then 1 else 0⟩
  Vec.mul relu_prime upstream_gradient

/-- State of a `SoftmaxLayer` object. -/
structure SoftmaxLayer where
  N : ℕ
  activation : Vec

/-- Method `SoftmaxLayer.forward_propagation`:
`np.exp(z) / np.sum(np.exp(z))`; the result is cached and returned. -/
def SoftmaxLayer.forward_propagation (e : ℚ → ℚ) (st : SoftmaxLayer)
    (weighted_sum : Vec) : Vec × SoftmaxLayer :=
  let a : Vec :=
    ⟨weighted_sum.n, fun i =>
      e (weighted_sum.entry i) / (∑ k ∈ Finset.range weighted_sum.n, e (weighted_sum.entry k))⟩
  (a, { st with activation := a })

/-- Method `SoftmaxLayer.backward_propagation`: the upstream gradient is
returned unchanged (identity pass-through). -/
def SoftmaxLayer.backward_propagation (_st : SoftmaxLayer)
    (upstream_gradient : Vec) : Vec :=
  upstream_gradient

/-- State of an `InputLayer` object (a dummy layer: only a cached activation). -/
structure InputLayer where
  N : ℕ
  activation : Vec

/-! ## Cost functions -/

/-- Function `quadratic_cost`: `1/2 * np.sum(np.square(expected - activation))`. -/
def quadratic_cost (expected_output activation : Vec) : ℚ :=
  1/2 * ∑ i ∈ Finset.range expected_output.n,
    (expected_output.entry i - activation.entry i) ^ 2

/-- Function `quadratic_cost_prime`: `activation - expected_output`. -/
def quadratic_cost_prime (expected_output activation : Vec) : Vec :=
  Vec.sub activation expected_output

/-- Function `cross_entropy_cost`: `-np.sum(expected * np.log(activation))`;
`lg` stands for the numeric `np.log`. -/
def cross_entropy_cost (lg : ℚ → ℚ) (expected_output activation : Vec) : ℚ :=
  -(∑ i ∈ Finset.range expected_output.n,
      expected_output.entry i * lg (activation.entry i))

/-- Function `cross_entropy_cost_prime_SM` (fused softmax + cross-entropy
derivative): `activation - expected_output`. -/
def cross_entropy_cost_prime_SM (expected_output activation : Vec) : Vec :=
  Vec.sub activation expected_output

/-! ## The Layer variants, as a closed sum -/

/-- A layer object: one of the five duck-typed layer classes. -/
inductive Layer where
  | input : InputLayer → Layer
  | fc : FullyConnectedLayer → Layer
  | sigmoid : SigmoidLayer → Layer
  | relu : ReluLayer → Layer
  | softmax : SoftmaxLayer → Layer

/-- Dynamic dispatch of `forward_propagation`.  `InputLayer` has no such
method (the driver never calls it on index 0), so that case is the
`AttributeError` path. -/
def Layer.forward_propagation (e : ℚ → ℚ) : Layer → Vec → Except String (Vec × Layer)
  | .input _, _ => .error "AttributeError: InputLayer has no forward_propagation"
  | .fc st, x =>
    match st.forward_propagation x with
    | .error msg => .error msg
    | .ok (z, st') => .ok (z, .fc st')
  | .sigmoid st, x =>
    let p := st.forward_propagation e x
    .ok (p.1, .sigmoid p.2)
  | .relu st, x =>
    let p := st.forward_propagation x
    .ok (p.1, .relu p.2)
  | .softmax st, x =>
    let p := st.forward_propagation e x
    .ok (p.1, .softmax p.2)

/-- Dynamic dispatch of `backward_propagation`, returning the downstream
gradient and the (possibly) updated layer object.  The driver's loops never
reach index 0, so the `input` case is never invoked. -/
def Layer.backward_propagation : Layer → Vec → Vec × Layer
  | .input st, g => (g, .input st)
  | .fc st, g =>
    let p := st.backward_propagation g
    (p.1, .fc p.2)
  | .sigmoid st, g => (st.backward_propagation g, .sigmoid st)
  | .relu st, g => (st.backward_propagation g, .relu st)
  | .softmax st, g => (st.backward_propagation g, .softmax st)

/-- Dynamic dispatch of `update_parameters`: a gradient-descent step for
`FullyConnectedLayer`, a no-op (`pass`) for every other variant. -/
def Layer.update_parameters (mini_batch_size : ℕ) (eta : ℚ) : Layer → Layer
  | .fc st => .fc (st.update_parameters mini_batch_size eta)
  | L => L

/-- Assignment `self.layers[0].activation = input_data`.  A
`FullyConnectedLayer` has no `activation` attribute; the builder always puts
an `InputLayer` at index 0, so that case is unreachable and left as the
identity. -/
def Layer.set_activation : Layer → Vec → Layer
  | .input st, x => .input { st with activation := x }
  | .fc st, _ => .fc st
  | .sigmoid st, x => .sigmoid { st with activation := x }
  | .relu st, x => .relu { st with activation := x }
  | .softmax st, x => .softmax { st with activation := x }

/-- Attribute lookup `layer.activation` (used on `self.layers[-1]`); `none`
models the `AttributeError` a `FullyConnectedLayer` would raise. -/
def Layer.activation : Layer → Option Vec
  | .input st => some st.activation
  | .fc _ => none
  | .sigmoid st => some st.activation
  | .relu st => some st.activation
  | .softmax st => some st.activation

/-! ## The Network driver class -/

/-- State of a `Network` object: the cost function and its derivative, the
recorded per-epoch cost sequences, the combined softmax+cross-entropy flag,
the ordered layer list, and the builder's running previous-layer size. -/
structure Network where
  cost : Vec → Vec → ℚ
  cost_prime : Vec → Vec → Vec
  cost_points : List ℚ
  cost_points_test : List ℚ
  is_SM_CE : Bool
  layers : List Layer
  prev_layer_size : ℕ

/-- Constructor `Network.__init__`: empty cost records, one `InputLayer` of
the given width, and `prev_layer_size = input_size`. -/
def Network.init (input_size : ℕ) (cost : Vec → Vec → ℚ)
    (cost_prime : Vec → Vec → Vec) (is_SM_CE : Bool) : Network :=
  { cost := cost
    cost_prime := cost_prime
    cost_points := []
    cost_points_test := []
    is_SM_CE := is_SM_CE
    layers := [.input ⟨input_size, Vec.zeros input_size⟩]
    prev_layer_size := input_size }

/-- Method `Network.add_fc_layer`: appends a `FullyConnectedLayer` built from
the current `prev_layer_size` (the random draws are the parameters `W0`,
`B0`), then records the new previous size. -/
def Network.add_fc_layer (net : Network) (layer_size : ℕ)
    (W0 : ℕ → ℕ → ℚ) (B0 : ℕ → ℚ) : Network :=
  { net with
      layers := net.layers ++ [.fc (FullyConnectedLayer.init layer_size net.prev_layer_size W0 B0)]
      prev_layer_size := layer_size }

/-- Method `Network.add_sigmoid_layer`. -/
def Network.add_sigmoid_layer (net : Network) (layer_size : ℕ) : Network :=
  { net with
      layers := net.layers ++ [.sigmoid ⟨layer_size, Vec.zeros layer_size⟩]
      prev_layer_size := layer_size }

/-- Method `Network.add_relu_layer`. -/
def Network.add_relu_layer (net : Network) (layer_size : ℕ) : Network :=
  { net with
      layers := net.layers ++ [.relu ⟨layer_size, Vec.zeros layer_size⟩]
      prev_layer_size := layer_size }

/-- Method `Network.add_softmax_layer`. -/
def Network.add_softmax_layer (net : Network) (layer_size : ℕ) : Network :=
  { net with
      layers := net.layers ++ [.softmax ⟨layer_size, Vec.zeros layer_size⟩]
      prev_layer_size := layer_size }

/-- The loop `for layer in range(1, len(self.layers)): output =
self.layers[layer].forward_propagation(output)`, applied to the given tail of
the layer list; returns the updated layers (in order) and the final output,
or propagates the fatal shape-mismatch error. -/
def forwardLayers (e : ℚ → ℚ) : List Layer → Vec → Except String (List Layer × Vec)
  | [], out => .ok ([], out)
  | L :: rest, out =>
    match L.forward_propagation e out with
    | .error msg => .error msg
    | .ok (out', L') =>
      match forwardLayers e rest out' with
      | .error msg => .error msg
      | .ok (rest', out2) => .ok (L' :: rest', out2)

/-- Method `Network.forward_pass`: writes the input into layer 0's activation
slot, pushes it through every subsequent layer in order, and returns the final
output with the updated network.  An empty layer list would be the
`IndexError` of `self.layers[0]` (unreachable for built networks). -/
def Network.forward_pass (e : ℚ → ℚ) (net : Network) (input_data : Vec) :
    Except String (Vec × Network) :=
  match net.layers with
  | [] => .error "IndexError: list index out of range"
  | l0 :: rest =>
    match forwardLayers e rest input_data with
    | .error msg => .error msg
    | .ok (rest', output) =>
      .ok (output, { net with layers := l0.set_activation input_data :: rest' })

/-- The loop `for layer in range(1, len(self.layers)): upstream_gradient =
self.layers[-layer].backward_propagation(upstream_gradient)`: the given layer
list is processed from its LAST element to its first, threading the gradient;
the updated layers are returned in their original order together with the
final downstream gradient. -/
def backLayers : List Layer → Vec → List Layer × Vec
  | [], g => ([], g)
  | L :: rest, g =>
    let p := backLayers rest g
    let q := L.backward_propagation p.2
    (q.2 :: p.1, q.1)

/-- Method `Network.backward_pass`: the initial upstream gradient is
`cost_prime(expected_output, self.layers[-1].activation)`.  When
`is_SM_CE == False` it is propagated through `layers[-1] … layers[1]`; in
combined mode through `layers[-2] … layers[1]`, skipping the softmax layer.
The `Except` errors model `IndexError` on an empty list and the
`AttributeError` of reading `.activation` off a `FullyConnectedLayer`. -/
def Network.backward_pass (net : Network) (expected_output : Vec) :
    Except String Network :=
  match net.layers with
  | [] => .error "IndexError: list index out of range"
  | l0 :: t =>
    match ((l0 :: t).getLast (List.cons_ne_nil l0 t)).activation with
    | none => .error "AttributeError: layer has no attribute activation"
    | some act =>
      let upstream_gradient := net.cost_prime expected_output act
      if net.is_SM_CE = false then
        .ok { net with layers := l0 :: (backLayers t upstream_gradient).1 }
      else
        .ok { net with layers :=
          l0 :: ((backLayers t.dropLast upstream_gradient).1 ++ t.drop (t.length - 1)) }

/-- The per-sample loop of `Network.mini_batch_pass`: `for input, output in
mini_batch: self.forward_pass(input); self.backward_pass(output)`. -/
def runSamples (e : ℚ → ℚ) (net : Network) : List (Vec × Vec) → Except String Network
  | [] => .ok net
  | s :: rest =>
    match net.forward_pass e s.1 with
    | .error msg => .error msg
    | .ok (_, net1) =>
      match net1.backward_pass s.2 with
      | .error msg => .error msg
      | .ok net2 => runSamples e net2 rest

/-- The update loop of `Network.mini_batch_pass`: `for layer in range(1,
len(self.layers)): self.layers[layer].update_parameters(len(mini_batch),
eta)` — every layer except index 0 gets exactly one update call. -/
def updateLayers (mini_batch_size : ℕ) (eta : ℚ) : List Layer → List Layer
  | [] => []
  | l0 :: t => l0 :: t.map (Layer.update_parameters mini_batch_size eta)

/-- Method `Network.mini_batch_pass`: forward/backward pass for every sample,
then one parameter update per non-input layer, with `len(mini_batch)` as the
mini-batch size. -/
def Network.mini_batch_pass (e : ℚ → ℚ) (net : Network) (eta : ℚ)
    (mini_batch : List (Vec × Vec)) : Except String Network :=
  match runSamples e net mini_batch with
  | .error msg => .error msg
  | .ok net1 => .ok { net1 with layers := updateLayers mini_batch.length eta net1.layers }

/-- The mini-batch list of `stochastic_gradient_descent`:
`[training_data[k:k+mini_batch_size] for k in range(0, n, mini_batch_size)]`.
Python's `range(0, n, m)` (for `m > 0`) has `⌈n/m⌉` elements, and the slice
`l[k:k+m]` is `(l.drop k).take m`. -/
def mini_batches (mini_batch_size : ℕ) (training_data : List (Vec × Vec)) :
    List (List (Vec × Vec)) :=
  (List.range' 0 ((training_data.length + mini_batch_size - 1) / mini_batch_size)
      mini_batch_size).map
    (fun k => (training_data.drop k).take mini_batch_size)

/-- The loop `for mini_batch in mini_batches: self.mini_batch_pass(eta,
mini_batch)`. -/
def runBatches (e : ℚ → ℚ) (eta : ℚ) : Network → List (List (Vec × Vec)) →
    Except String Network
  | net, [] => .ok net
  | net, mb :: rest =>
    match net.mini_batch_pass e eta mb with
    | .error msg => .error msg
    | .ok net1 => runBatches e eta net1 rest

/-- The epoch cost loop: `for input, output in data: activation =
self.forward_pass(input); cost_amount += self.cost(output, activation)`;
returns the accumulated cost and the network as mutated by the forward
passes. -/
def costLoop (e : ℚ → ℚ) : Network → ℚ → List (Vec × Vec) →
    Except String (ℚ × Network)
  | net, acc, [] => .ok (acc, net)
  | net, acc, s :: rest =>
    match net.forward_pass e s.1 with
    | .error msg => .error msg
    | .ok (activation, net1) =>
      costLoop e net1 (acc + net1.cost s.2 activation) rest

/-- One epoch body of `Network.stochastic_gradient_descent`, applied to the
already-shuffled training data: run `mini_batch_pass` over every chunk in
sequence, then do the extra full forward pass over every training sample and
append the mean cost to `cost_points`; if test data is supplied, do the same
for `cost_points_test` (the console printing and the accuracy count are
observer concerns with no effect on the network state). -/
def sgd_epoch (e : ℚ → ℚ) (eta : ℚ) (mini_batch_size : ℕ)
    (training_data : List (Vec × Vec)) (test_data : Option (List (Vec × Vec)))
    (net : Network) : Except String Network :=
  match runBatches e eta net (mini_batches mini_batch_size training_data) with
  | .error msg => .error msg
  | .ok net1 =>
    match costLoop e net1 0 training_data with
    | .error msg => .error msg
    | .ok (cost_amount, net2) =>
      let net3 := { net2 with cost_points :=
        net2.cost_points ++ [cost_amount / (training_data.length : ℚ)] }
      match test_data with
      | none => .ok net3
      | some td =>
        match costLoop e net3 0 td with
        | .error msg => .error msg
        | .ok (cost_amount_test, net4) =>
          .ok { net4 with cost_points_test :=
            net4.cost_points_test ++ [cost_amount_test / (td.length : ℚ)] }

/-- Method `Network.stochastic_gradient_descent`: `for j in range(epochs)`,
shuffle the training data in place (the in-place `random.shuffle` of epoch
`j` is abstracted as the permutation `shuffle j`, threaded so each epoch
reshuffles the previous epoch's order) and run the epoch body. -/
def stochastic_gradient_descent (e : ℚ → ℚ)
    (shuffle : ℕ → List (Vec × Vec) → List (Vec × Vec)) (eta : ℚ)
    (mini_batch_size : ℕ) (test_data : Option (List (Vec × Vec))) :
    ℕ → ℕ → List (Vec × Vec) → Network → Except String Network
  | _, 0, _, net => .ok net
  | j, epochs + 1, training_data, net =>
    let shuffled := shuffle j training_data
    match sgd_epoch e eta mini_batch_size shuffled test_data net with
    | .error msg => .error msg
    | .ok net1 =>
      stochastic_gradient_descent e shuffle eta mini_batch_size test_data
        (j + 1) epochs shuffled net1

/-! ## Concrete sample objects used by the witness theorems -/

/-- A concrete 2×3 fully connected layer with nonzero weights, biases, cached
activations and running sums. -/
def fcSample : FullyConnectedLayer :=
  { N := 2
    N_p := 3
    W := ⟨2, 3, fun i j => (i : ℚ) + (j : ℚ) + 1⟩
    dW := Mat.zeros 2 3
    B := ⟨2, fun i => (i : ℚ) - 1⟩
    dB := Vec.zeros 2
    Z := Vec.zeros 2
    dW_sum := ⟨2, 3, fun i j => (i : ℚ) * (j : ℚ) + 2⟩
    dB_sum := ⟨2, fun i => (i : ℚ) + 3⟩
    previous_layer_activations := ⟨3, fun i => (i : ℚ) - 2⟩ }

/-- A concrete conforming input vector for `fcSample` (3 rows). -/
def xSample : Vec := ⟨3, fun i => (i : ℚ) + 1⟩

/-- A concrete NON-conforming input vector for `fcSample` (4 rows ≠ 3 cols). -/
def xBad : Vec := ⟨4, fun i => (i : ℚ)⟩

/-- A concrete upstream gradient for `fcSample` (2 rows). -/
def gSample : Vec := ⟨2, fun i => (i : ℚ) + 5⟩

/-- A concrete `ReluLayer` of width 3. -/
def reluSample : ReluLayer := ⟨3, Vec.zeros 3⟩

/-- A concrete pre-activation with a negative, a zero, and a positive entry. -/
def zSample : Vec := ⟨3, fun i => (i : ℚ) - 1⟩

/-- A concrete nonzero upstream gradient of width 3. -/
def gRelu : Vec := ⟨3, fun i => (i : ℚ) + 7⟩

/-! ## Claim C1 -/

/-- Claim C1: for every `FullyConnectedLayer` and every input column vector
`x` whose row count equals `W`'s column count, `forward_propagation(x)`
returns `W·x + B` (stated entrywise), stores that result in the layer's `Z`
field, stores `x` in `previous_layer_activations`, and leaves `W` and `B`
unchanged. -/
theorem fc_forward_affine (st : FullyConnectedLayer) (x : Vec)
    (h : st.W.c = x.n) :
    ∃ z st', st.forward_propagation x = .ok (z, st')
      ∧ z.n = st.W.r
      ∧ (∀ i, z.entry i =
          (∑ k ∈ Finset.range st.W.c, st.W.entry i k * x.entry k) + st.B.entry i)
      ∧ st'.Z = z
      ∧ st'.previous_layer_activations = x
      ∧ st'.W = st.W ∧ st'.B = st.B := by
  have hc : ¬ st.W.c ≠ x.n := by simp [h]
  refine ⟨Vec.add (Mat.mulVec st.W x) st.B,
    { st with Z := Vec.add (Mat.mulVec st.W x) st.B, previous_layer_activations := x },
    ?_, rfl, fun i => rfl, rfl, rfl, rfl, rfl⟩
  simp [FullyConnectedLayer.forward_propagation, hc]

/-- Witness for C1 at the concrete layer `fcSample` and input `xSample`. -/
theorem fc_forward_affine_witness :
    ∃ z st', fcSample.forward_propagation xSample = .ok (z, st')
      ∧ z.n = fcSample.W.r
      ∧ (∀ i, z.entry i =
          (∑ k ∈ Finset.range fcSample.W.c, fcSample.W.entry i k * xSample.entry k)
            + fcSample.B.entry i)
      ∧ st'.Z = z
      ∧ st'.previous_layer_activations = xSample
      ∧ st'.W = fcSample.W ∧ st'.B = fcSample.B :=
  fc_forward_affine fcSample xSample rfl

/-! ## Claim C2 -/

/-- Claim C2: for every `FullyConnectedLayer` in any state and every upstream
gradient `g`, `backward_propagation(g)` sets `dW` to the outer product of `g`
with the cached activations and adds it to `dW_sum`, sets `dB` to `g` and adds
it to `dB_sum`, returns `Wᵗ·g` (stated entrywise), leaves `W` and `B`
unchanged, and a second call accumulates into the running sums rather than
overwriting them. -/
theorem fc_backward_spec (st : FullyConnectedLayer) (g : Vec) :
    ((st.backward_propagation g).2.dW.r = g.n
      ∧ (st.backward_propagation g).2.dW.c = st.previous_layer_activations.n
      ∧ ∀ i j, (st.backward_propagation g).2.dW.entry i j
          = g.entry i * st.previous_layer_activations.entry j)
    ∧ ((st.backward_propagation g).2.dW_sum.r = st.dW_sum.r
      ∧ (st.backward_propagation g).2.dW_sum.c = st.dW_sum.c
      ∧ ∀ i j, (st.backward_propagation g).2.dW_sum.entry i j
          = st.dW_sum.entry i j + g.entry i * st.previous_layer_activations.entry j)
    ∧ (st.backward_propagation g).2.dB = g
    ∧ ((st.backward_propagation g).2.dB_sum.n = st.dB_sum.n
      ∧ ∀ i, (st.backward_propagation g).2.dB_sum.entry i
          = st.dB_sum.entry i + g.entry i)
    ∧ (st.backward_propagation g).1.n = st.W.c
    ∧ (∀ j, (st.backward_propagation g).1.entry j
        = ∑ i ∈ Finset.range st.W.r, st.W.entry i j * g.entry i)
    ∧ (st.backward_propagation g).2.W = st.W
    ∧ (st.backward_propagation g).2.B = st.B
    ∧ (∀ g2 i j,
        (((st.backward_propagation g).2).backward_propagation g2).2.dW_sum.entry i j
          = st.dW_sum.entry i j + g.entry i * st.previous_layer_activations.entry j
            + g2.entry i * st.previous_layer_activations.entry j)
    ∧ (∀ g2 i,
        (((st.backward_propagation g).2).backward_propagation g2).2.dB_sum.entry i
          = st.dB_sum.entry i + g.entry i + g2.entry i) :=
  ⟨⟨rfl, rfl, fun _ _ => rfl⟩, ⟨rfl, rfl, fun _ _ => rfl⟩, rfl, ⟨rfl, fun _ => rfl⟩,
   rfl, fun _ => rfl, rfl, rfl, fun _ _ _ => rfl, fun _ _ => rfl⟩

/-! ## Claim C3 -/

/-- Claim C3: for every `FullyConnectedLayer`, positive mini-batch size `m`
and learning rate `eta`, `update_parameters(m, eta)` replaces `W` with
`W − eta·(dW_sum / m)` and `B` with `B − eta·(dB_sum / m)` (entrywise, shapes
preserved), zeroes both running sums in place (shapes preserved), and changes
no other field. -/
theorem fc_update_parameters_spec (st : FullyConnectedLayer) (m : ℕ) (eta : ℚ)
    (hm : 0 < m) :
    ((st.update_parameters m eta).W.r = st.W.r
      ∧ (st.update_parameters m eta).W.c = st.W.c
      ∧ ∀ i j, (st.update_parameters m eta).W.entry i j
          = st.W.entry i j - eta * (st.dW_sum.entry i j / (m : ℚ)))
    ∧ ((st.update_parameters m eta).B.n = st.B.n
      ∧ ∀ i, (st.update_parameters m eta).B.entry i
          = st.B.entry i - eta * (st.dB_sum.entry i / (m : ℚ)))
    ∧ ((st.update_parameters m eta).dW_sum.r = st.dW_sum.r
      ∧ (st.update_parameters m eta).dW_sum.c = st.dW_sum.c
      ∧ ∀ i j, (st.update_parameters m eta).dW_sum.entry i j = 0)
    ∧ ((st.update_parameters m eta).dB_sum.n = st.dB_sum.n
      ∧ ∀ i, (st.update_parameters m eta).dB_sum.entry i = 0)
    ∧ (st.update_parameters m eta).N = st.N
    ∧ (st.update_parameters m eta).N_p = st.N_p
    ∧ (st.update_parameters m eta).dW = st.dW
    ∧ (st.update_parameters m eta).dB = st.dB
    ∧ (st.update_parameters m eta).Z = st.Z
    ∧ (st.update_parameters m eta).previous_layer_activations
        = st.previous_layer_activations :=
  ⟨⟨rfl, rfl, fun _ _ => rfl⟩, ⟨rfl, fun _ => rfl⟩, ⟨rfl, rfl, fun _ _ => rfl⟩,
   ⟨rfl, fun _ => rfl⟩, rfl, rfl, rfl, rfl, rfl, rfl⟩

/-- Witness for C3 at the concrete layer `fcSample`, `m = 2`, `eta = 1/10`. -/
theorem fc_update_parameters_spec_witness :
    ((fcSample.update_parameters 2 (1/10)).W.r = fcSample.W.r
      ∧ (fcSample.update_parameters 2 (1/10)).W.c = fcSample.W.c
      ∧ ∀ i j, (fcSample.update_parameters 2 (1/10)).W.entry i j
          = fcSample.W.entry i j - (1/10) * (fcSample.dW_sum.entry i j / ((2 : ℕ) : ℚ)))
    ∧ ((fcSample.update_parameters 2 (1/10)).B.n = fcSample.B.n
      ∧ ∀ i, (fcSample.update_parameters 2 (1/10)).B.entry i
          = fcSample.B.entry i - (1/10) * (fcSample.dB_sum.entry i / ((2 : ℕ) : ℚ)))
    ∧ ((fcSample.update_parameters 2 (1/10)).dW_sum.r = fcSample.dW_sum.r
      ∧ (fcSample.update_parameters 2 (1/10)).dW_sum.c = fcSample.dW_sum.c
      ∧ ∀ i j, (fcSample.update_parameters 2 (1/10)).dW_sum.entry i j = 0)
    ∧ ((fcSample.update_parameters 2 (1/10)).dB_sum.n = fcSample.dB_sum.n
      ∧ ∀ i, (fcSample.update_parameters 2 (1/10)).dB_sum.entry i = 0)
    ∧ (fcSample.update_parameters 2 (1/10)).N = fcSample.N
    ∧ (fcSample.update_parameters 2 (1/10)).N_p = fcSample.N_p
    ∧ (fcSample.update_parameters 2 (1/10)).dW = fcSample.dW
    ∧ (fcSample.update_parameters 2 (1/10)).dB = fcSample.dB
    ∧ (fcSample.update_parameters 2 (1/10)).Z = fcSample.Z
    ∧ (fcSample.update_parameters 2 (1/10)).previous_layer_activations
        = fcSample.previous_layer_activations :=
  fc_update_parameters_spec fcSample 2 (1/10) (by decide)

/-! ## Claim C7 -/

/-- Claim C7: `FullyConnectedLayer.forward_propagation` halts fatally (the
shape-mismatch diagnostic on the `Except` error path, which carries no
updated layer state) if and only if the weight matrix's column count differs
from the input vector's row count; and a network-level `forward_pass` that
reaches such a layer propagates the same fatal error no matter what layers
follow, so the caller cannot continue past it. -/
theorem fc_forward_mismatch_fatal (st : FullyConnectedLayer) (x : Vec) :
    ((∃ msg, st.forward_propagation x = .error msg) ↔ st.W.c ≠ x.n)
    ∧ (st.W.c ≠ x.n → st.forward_propagation x
        = .error "mismatch between weight matrix columns and activation rows")
    ∧ (∀ (e : ℚ → ℚ) (net : Network) (l0 : Layer) (rest : List Layer),
        net.layers = l0 :: Layer.fc st :: rest → st.W.c ≠ x.n →
        net.forward_pass e x
          = .error "mismatch between weight matrix columns and activation rows") := by
  have herr : st.W.c ≠ x.n → st.forward_propagation x
      = .error "mismatch between weight matrix columns and activation rows" := by
    intro hc
    simp [FullyConnectedLayer.forward_propagation, hc]
  refine ⟨⟨?_, fun hc => ⟨_, herr hc⟩⟩, herr, ?_⟩
  · rintro ⟨msg, hmsg⟩
    by_contra hc
    simp [FullyConnectedLayer.forward_propagation, hc] at hmsg
  · intro e net l0 rest hlayers hc
    unfold Network.forward_pass
    rw [hlayers]
    simp [forwardLayers, Layer.forward_propagation, herr hc]

/-- Witness for C7 at the concrete layer `fcSample` (3 columns) and the
non-conforming input `xBad` (4 rows). -/
theorem fc_forward_mismatch_fatal_witness :
    ((∃ msg, fcSample.forward_propagation xBad = .error msg) ↔ fcSample.W.c ≠ xBad.n)
    ∧ (fcSample.W.c ≠ xBad.n → fcSample.forward_propagation xBad
        = .error "mismatch between weight matrix columns and activation rows")
    ∧ (∀ (e : ℚ → ℚ) (net : Network) (l0 : Layer) (rest : List Layer),
        net.layers = l0 :: Layer.fc fcSample :: rest → fcSample.W.c ≠ xBad.n →
        net.forward_pass e xBad
          = .error "mismatch between weight matrix columns and activation rows") :=
  fc_forward_mismatch_fatal fcSample xBad

/-! ## Claim C8 -/

/-- Claim C8: for a `ReluLayer` whose `activation` field holds the result of
the most recent `forward_propagation` (elementwise `max(input, 0)`),
`backward_propagation(g)` returns `g ⊙ indicator(activation > 0)`; at every
component where the stored activation is exactly 0 the returned gradient is 0
regardless of the sign of the pre-activation, and where the pre-activation is
strictly positive the upstream gradient passes through unchanged. -/
theorem relu_backward_spec (st : ReluLayer) (z g : Vec) :
    ((st.forward_propagation z).2.activation.n = z.n)
    ∧ (∀ i, (st.forward_propagation z).2.activation.entry i = max (z.entry i) 0)
    ∧ (((st.forward_propagation z).2.backward_propagation g).n = z.n)
    ∧ (∀ i, ((st.forward_propagation z).2.backward_propagation g).entry i
        = (if 0 < (st.forward_propagation z).2.activation.entry i then 1 else 0)
            * g.entry i)
    ∧ (∀ i, (st.forward_propagation z).2.activation.entry i = 0 →
        ((st.forward_propagation z).2.backward_propagation g).entry i = 0)
    ∧ (∀ i, z.entry i ≤ 0 →
        ((st.forward_propagation z).2.backward_propagation g).entry i = 0)
    ∧ (∀ i, 0 < z.entry i →
        ((st.forward_propagation z).2.backward_propagation g).entry i = g.entry i) := by
  refine ⟨rfl, fun i => rfl, rfl, fun i => rfl, ?_, ?_, ?_⟩
  · intro i h0
    show (if 0 < (st.forward_propagation z).2.activation.entry i then (1 : ℚ) else 0)
        * g.entry i = 0
    rw [h0]
    simp
  · intro i hz
    show (if 0 < max (z.entry i) 0 then (1 : ℚ) else 0) * g.entry i = 0
    rw [max_eq_right hz]
    simp
  · intro i hz
    show (if 0 < max (z.entry i) 0 then (1 : ℚ) else 0) * g.entry i = g.entry i
    rw [max_eq_left (le_of_lt hz), if_pos hz]
    ring

/-- Witness for C8 at a concrete `ReluLayer`, a pre-activation with negative,
zero and positive components, and a nonzero upstream gradient. -/
theorem relu_backward_spec_witness :
    ((reluSample.forward_propagation zSample).2.activation.n = zSample.n)
    ∧ (∀ i, (reluSample.forward_propagation zSample).2.activation.entry i
        = max (zSample.entry i) 0)
    ∧ (((reluSample.forward_propagation zSample).2.backward_propagation gRelu).n
        = zSample.n)
    ∧ (∀ i, ((reluSample.forward_propagation zSample).2.backward_propagation gRelu).entry i
        = (if 0 < (reluSample.forward_propagation zSample).2.activation.entry i then 1 else 0)
            * gRelu.entry i)
    ∧ (∀ i, (reluSample.forward_propagation zSample).2.activation.entry i = 0 →
        ((reluSample.forward_propagation zSample).2.backward_propagation gRelu).entry i = 0)
    ∧ (∀ i, zSample.entry i ≤ 0 →
        ((reluSample.forward_propagation zSample).2.backward_propagation gRelu).entry i = 0)
    ∧ (∀ i, 0 < zSample.entry i →
        ((reluSample.forward_propagation zSample).2.backward_propagation gRelu).entry i
          = gRelu.entry i) :=
  relu_backward_spec reluSample zSample gRelu

/-! ## Helper lemmas about the backward loop -/

/-- Processing `xs ++ [L]` from the last layer backward first sends the
gradient through `L`, then processes `xs`. -/
theorem backLayers_append (xs : List Layer) (L : Layer) (g : Vec) :
    backLayers (xs ++ [L]) g
      = ((backLayers xs (L.backward_propagation g).1).1
            ++ [(L.backward_propagation g).2],
         (backLayers xs (L.backward_propagation g).1).2) := by
  induction xs with
  | nil => simp [backLayers]
  | cons x xs ih => simp [backLayers, ih]

/-- Dropping all but the last element of a nonempty list leaves exactly its
last element. -/
theorem drop_length_sub_one {α : Type} :
    ∀ (l : List α) (h : l ≠ []), l.drop (l.length - 1) = [l.getLast h]
  | [a], _ => rfl
  | a :: b :: t, _ => by
    have ih := drop_length_sub_one (b :: t) (List.cons_ne_nil b t)
    rw [List.getLast_cons (List.cons_ne_nil b t)]
    simpa using ih

/-! ## Claim C4 -/

/-- Claim C4: `SoftmaxLayer.backward_propagation` is the identity, and for a
network in combined softmax+cross-entropy mode whose last layer is a Softmax
layer, `backward_pass(expected)` produces exactly the layer states (and hence
exactly the accumulated `dW_sum`/`dB_sum` in every `FullyConnectedLayer`)
that the non-combined `backward_pass` would produce by also running the
Softmax layer's identity backward step. -/
theorem backward_pass_combined_equiv (net : Network) (expected : Vec)
    (s : SoftmaxLayer)
    (hSM : net.is_SM_CE = true)
    (hlast : net.layers.getLast? = some (.softmax s)) :
    (∀ (st : SoftmaxLayer) (g : Vec), st.backward_propagation g = g)
    ∧ (net.backward_pass expected).map Network.layers
      = (({ net with is_SM_CE := false } : Network).backward_pass expected).map
          Network.layers := by
  refine ⟨fun _ _ => rfl, ?_⟩
  match hl : net.layers with
  | [] => rw [hl] at hlast; simp at hlast
  | l0 :: t =>
    have hlast' : (l0 :: t).getLast? = some (.softmax s) := by rw [← hl]; exact hlast
    have hgl : (l0 :: t).getLast (List.cons_ne_nil l0 t) = .softmax s := by
      have := List.getLast?_eq_getLast (l0 :: t) (List.cons_ne_nil l0 t)
      rw [this] at hlast'
      exact Option.some.inj hlast'
    unfold Network.backward_pass
    rw [hl]
    simp only [hgl, Layer.activation, hSM]
    cases t with
    | nil => simp [backLayers, Except.map]
    | cons t0 tt =>
      have htne : t0 :: tt ≠ [] := List.cons_ne_nil t0 tt
      have hglt : (t0 :: tt).getLast htne = .softmax s := by
        rw [← hgl]; exact (List.getLast_cons htne).symm
      have hsplit : (t0 :: tt).dropLast ++ [Layer.softmax s] = t0 :: tt := by
        rw [← hglt]; exact List.dropLast_concat_getLast htne
      have hdrop : (t0 :: tt).drop ((t0 :: tt).length - 1) = [Layer.softmax s] := by
        rw [drop_length_sub_one (t0 :: tt) htne, hglt]
      rw [hdrop]
      conv_rhs => rw [← hsplit]
      rw [backLayers_append]
      simp [Layer.backward_propagation, SoftmaxLayer.backward_propagation, Except.map]

/-- A concrete combined-mode network `input(2) → fc(2) → softmax(2)` built by
the builder with the fused cross-entropy derivative. -/
def smNet : Network :=
  ((Network.init 2 (cross_entropy_cost (fun q => q)) cross_entropy_cost_prime_SM
      true).add_fc_layer 2 (fun i j => (i : ℚ) + (j : ℚ)) (fun i => (i : ℚ))).add_softmax_layer 2

/-- A concrete one-hot expected output of width 2. -/
def ySM : Vec := ⟨2, fun i => if i = 0 then 1 else 0⟩

/-- Witness for C4 at the concrete combined-mode network `smNet`. -/
theorem backward_pass_combined_equiv_witness :
    (∀ (st : SoftmaxLayer) (g : Vec), st.backward_propagation g = g)
    ∧ (smNet.backward_pass ySM).map Network.layers
      = (({ smNet with is_SM_CE := false } : Network).backward_pass ySM).map
          Network.layers :=
  backward_pass_combined_equiv smNet ySM ⟨2, Vec.zeros 2⟩ rfl rfl

/-! ## Parameter preservation (frame property) -/

/-- Two layer objects have identical parameters: same `W` and `B` for
`FullyConnectedLayer` objects (same variant for the parameterless layers). -/
def layerParamsEq : Layer → Layer → Prop
  | .input _, .input _ => True
  | .fc a, .fc b => a.W = b.W ∧ a.B = b.B
  | .sigmoid _, .sigmoid _ => True
  | .relu _, .relu _ => True
  | .softmax _, .softmax _ => True
  | _, _ => False

/-- Two layer lists have pointwise identical parameters. -/
def netParamsEq (a b : List Layer) : Prop := List.Forall₂ layerParamsEq a b

theorem layerParamsEq_refl (L : Layer) : layerParamsEq L L := by
  cases L <;> simp [layerParamsEq]

theorem layerParamsEq_trans {a b c : Layer} (h1 : layerParamsEq a b)
    (h2 : layerParamsEq b c) : layerParamsEq a c := by
  cases a <;> cases b <;> cases c <;> simp_all [layerParamsEq]

theorem netParamsEq_refl (l : List Layer) : netParamsEq l l :=
  List.forall₂_same.2 fun a _ => layerParamsEq_refl a

theorem netParamsEq_trans {a b c : List Layer} (h1 : netParamsEq a b)
    (h2 : netParamsEq b c) : netParamsEq a c := by
  induction h1 generalizing c with
  | nil => cases h2; exact .nil
  | cons hab _ ih =>
    cases h2 with
    | cons hbc htail2 => exact .cons (layerParamsEq_trans hab hbc) (ih htail2)

/-- `forward_propagation` of a `FullyConnectedLayer` does not change `W`, `B`. -/
theorem fc_forward_params {st st' : FullyConnectedLayer} {x z : Vec}
    (h : st.forward_propagation x = .ok (z, st')) : st'.W = st.W ∧ st'.B = st.B := by
  unfold FullyConnectedLayer.forward_propagation at h
  split at h
  · exact absurd h (by simp)
  · exact ⟨congrArg (·.2.W) (Except.ok.inj h).symm ▸ rfl,
      congrArg (·.2.B) (Except.ok.inj h).symm ▸ rfl⟩

/-- Writing into a layer's activation slot does not change its parameters. -/
theorem set_activation_params (L : Layer) (x : Vec) :
    layerParamsEq L (L.set_activation x) := by
  cases L <;> simp [Layer.set_activation, layerParamsEq]

/-- A successful layer forward step does not change its parameters. -/
theorem layer_forward_params {e : ℚ → ℚ} {L L' : Layer} {x y : Vec}
    (h : L.forward_propagation e x = .ok (y, L')) : layerParamsEq L L' := by
  cases L with
  | input st => exact absurd h (by simp [Layer.forward_propagation])
  | fc st =>
    cases hfp : st.forward_propagation x with
    | error msg => simp [Layer.forward_propagation, hfp] at h
    | ok p =>
      have hW := @fc_forward_params st p.2 x p.1 (by rw [hfp])
      simp [Layer.forward_propagation, hfp] at h
      rcases h with ⟨-, h2⟩
      rw [← h2]
      exact ⟨hW.1.symm, hW.2.symm⟩
  | sigmoid st =>
    simp [Layer.forward_propagation] at h
    rw [← h.2]
    simp [layerParamsEq]
  | relu st =>
    simp [Layer.forward_propagation] at h
    rw [← h.2]
    simp [layerParamsEq]
  | softmax st =>
    simp [Layer.forward_propagation] at h
    rw [← h.2]
    simp [layerParamsEq]

/-- A layer backward step does not change its parameters. -/
theorem layer_backward_params (L : Layer) (g : Vec) :
    layerParamsEq L (L.backward_propagation g).2 := by
  cases L <;>
    simp [Layer.backward_propagation, layerParamsEq,
      FullyConnectedLayer.backward_propagation]

/-- The forward loop does not change any layer's parameters. -/
theorem forwardLayers_params {e : ℚ → ℚ} :
    ∀ {ls ls' : List Layer} {x out : Vec},
      forwardLayers e ls x = .ok (ls', out) → netParamsEq ls ls' := by
  intro ls
  induction ls with
  | nil =>
    intro ls' x out h
    simp [forwardLayers] at h
    obtain ⟨h1, -⟩ := h
    subst h1
    exact .nil
  | cons L rest ih =>
    intro ls' x out h
    unfold forwardLayers at h
    split at h
    · simp at h
    · rename_i y L' hf
      split at h
      · simp at h
      · rename_i rest' out2 hr
        simp at h
        obtain ⟨hcons, -⟩ := h
        subst hcons
        exact .cons (layer_forward_params hf) (ih hr)

/-- The backward loop does not change any layer's parameters. -/
theorem backLayers_params : ∀ (ls : List Layer) (g : Vec),
    netParamsEq ls (backLayers ls g).1 := by
  intro ls
  induction ls with
  | nil => intro g; exact .nil
  | cons L rest ih =>
    intro g
    exact .cons (layer_backward_params L (backLayers rest g).2) (ih g)

/-- A successful `forward_pass` does not change any layer's parameters. -/
theorem forward_pass_params {e : ℚ → ℚ} {net net' : Network} {x out : Vec}
    (h : net.forward_pass e x = .ok (out, net')) :
    netParamsEq net.layers net'.layers := by
  unfold Network.forward_pass at h
  split at h
  · simp at h
  · rename_i l0 rest hl
    split at h
    · simp at h
    · rename_i rest' output hf
      simp at h
      obtain ⟨-, h2⟩ := h
      rw [hl, ← h2]
      exact .cons (set_activation_params l0 x) (forwardLayers_params hf)

/-- A successful `backward_pass` does not change any layer's parameters. -/
theorem backward_pass_params {net net' : Network} {y : Vec}
    (h : net.backward_pass y = .ok net') :
    netParamsEq net.layers net'.layers := by
  unfold Network.backward_pass at h
  split at h
  · simp at h
  · rename_i l0 t hl
    split at h
    · simp at h
    · rename_i act ha
      rw [hl]
      by_cases hsm : net.is_SM_CE = false
      · rw [if_pos hsm] at h
        have hlay := congrArg Network.layers (Except.ok.inj h)
        rw [← hlay]
        exact .cons (layerParamsEq_refl l0) (backLayers_params t _)
      · rw [if_neg hsm] at h
        have hlay := congrArg Network.layers (Except.ok.inj h)
        rw [← hlay]
        refine .cons (layerParamsEq_refl l0) ?_
        conv_lhs => rw [← List.take_append_drop (t.length - 1) t]
        rw [← List.dropLast_eq_take t]
        exact List.rel_append (backLayers_params t.dropLast _)
          (netParamsEq_refl (t.drop (t.length - 1)))

/-- The per-sample loop of `mini_batch_pass` does not change any layer's
parameters. -/
theorem runSamples_params {e : ℚ → ℚ} :
    ∀ {mb : List (Vec × Vec)} {net net' : Network},
      runSamples e net mb = .ok net' → netParamsEq net.layers net'.layers := by
  intro mb
  induction mb with
  | nil =>
    intro net net' h
    simp [runSamples] at h
    rw [← h]
    exact netParamsEq_refl _
  | cons s rest ih =>
    intro net net' h
    unfold runSamples at h
    split at h
    · simp at h
    · rename_i o net1 hf
      split at h
      · simp at h
      · rename_i net2 hb
        exact netParamsEq_trans
          (netParamsEq_trans (forward_pass_params hf) (backward_pass_params hb))
          (ih h)

/-! ## Claim C5 -/

/-- Claim C5: during the per-sample iterations of `mini_batch_pass` every
`FullyConnectedLayer` keeps its `W` and `B` (so after any prefix of the batch
— i.e. at the moment any sample is processed — the parameters are those the
network started with), and only after the last sample does `mini_batch_pass`
call `update_parameters` exactly once on each layer other than layer 0. -/
theorem mini_batch_pass_frame (e : ℚ → ℚ) (eta : ℚ) (net : Network)
    (mb p : List (Vec × Vec)) (netP netF : Network)
    (hp : ∃ q, mb = p ++ q)
    (hrunP : runSamples e net p = .ok netP)
    (hrunF : runSamples e net mb = .ok netF) :
    netParamsEq net.layers netP.layers
    ∧ net.mini_batch_pass e eta mb
        = .ok { netF with layers := updateLayers mb.length eta netF.layers } := by
  refine ⟨runSamples_params hrunP, ?_⟩
  unfold Network.mini_batch_pass
  rw [hrunF]

/-- A concrete network `input(1) → fc(1) → sigmoid(1)` for the driver-level
witnesses. -/
def wNet : Network :=
  ((Network.init 1 quadratic_cost quadratic_cost_prime false).add_fc_layer 1
      (fun _ _ => 1) (fun _ => 0)).add_sigmoid_layer 1

/-- A concrete one-sample mini-batch for `wNet`. -/
def wMb : List (Vec × Vec) := [(⟨1, fun _ => 2⟩, ⟨1, fun _ => 3⟩)]

/-- The network state after the per-sample phase of `wNet` on `wMb` (with the
identity standing in for `np.exp`). -/
def wNetF : Network :=
  match runSamples (fun q => q) wNet wMb with
  | .ok n => n
  | .error _ => wNet

/-- Witness for C5 at the concrete network `wNet` and batch `wMb`. -/
theorem mini_batch_pass_frame_witness :
    netParamsEq wNet.layers wNetF.layers
    ∧ wNet.mini_batch_pass (fun q => q) 1 wMb
        = .ok { wNetF with layers := updateLayers wMb.length 1 wNetF.layers } :=
  mini_batch_pass_frame (fun q => q) 1 wNet wMb wMb wNetF wNetF
    ⟨[], (List.append_nil wMb).symm⟩ rfl rfl

/-! ## Chunking lemmas for the SGD mini-batch partition -/

/-- Recursive reformulation of the mini-batch partition: first `m` elements,
then the chunks of the rest.  (For `m ≥ 1`, `(a :: l).drop m = l.drop (m-1)`.) -/
def chunksRec {α : Type} : ℕ → List α → List (List α)
  | _, [] => []
  | m, a :: l => (a :: l).take m :: chunksRec m (l.drop (m - 1))
termination_by m l => l.length
decreasing_by
  simp
  omega

/-- The slice comprehension of the source equals the recursive chunker. -/
theorem mini_batches_eq_chunksRec :
    ∀ (m : ℕ) (l : List (Vec × Vec)), 0 < m → mini_batches m l = chunksRec m l := by
  intro m l
  induction m, l using chunksRec.induct with
  | case1 m =>
    intro hm
    have h0 : (m - 1) / m = 0 := Nat.div_eq_of_lt (by omega)
    simp [mini_batches, chunksRec, h0]
  | case2 m a l ih =>
    intro hm
    obtain ⟨k, rfl⟩ : ∃ k, m = k + 1 := ⟨m - 1, by omega⟩
    simp only [Nat.add_sub_cancel] at ih
    have hcount : ((a :: l).length + (k + 1) - 1) / (k + 1) = l.length / (k + 1) + 1 := by
      have h1 : (a :: l).length + (k + 1) - 1 = l.length + (k + 1) := by
        rw [List.length_cons]; omega
      rw [h1, Nat.add_div_right _ (by omega)]
    have hcount' : ((l.drop k).length + (k + 1) - 1) / (k + 1) = l.length / (k + 1) := by
      have hdl : (l.drop k).length = l.length - k := by simp
      rcases Nat.lt_or_ge l.length k with hlt | hge
      · rw [hdl]
        rw [Nat.div_eq_of_lt (by omega), Nat.div_eq_of_lt (by omega)]
      · have e1 : (l.drop k).length + (k + 1) - 1 = l.length := by rw [hdl]; omega
        rw [e1]
    have hmap : ∀ j, ((a :: l).drop ((k + 1) + j)).take (k + 1)
        = (((a :: l).drop (k + 1)).drop j).take (k + 1) := by
      intro j
      rw [List.drop_drop]
    have htail : (List.range' (k + 1) (l.length / (k + 1)) (k + 1)).map
          (fun j => ((a :: l).drop j).take (k + 1))
        = mini_batches (k + 1) (l.drop k) := by
      rw [← List.map_add_range' (k + 1) 0 (l.length / (k + 1)) (k + 1), List.map_map]
      unfold mini_batches
      rw [hcount']
      apply List.map_congr_left
      intro j _
      simp only [Function.comp]
      rw [hmap j]
      simp
    unfold mini_batches
    rw [hcount, List.range'_succ]
    simp only [Nat.zero_add, List.map_cons, List.drop_zero]
    rw [htail, ih hm]
    rw [chunksRec]
    simp

/-- No chunks iff no data. -/
theorem chunksRec_ne_nil {α : Type} (m : ℕ) (l : List α) (h : l ≠ []) :
    chunksRec m l ≠ [] := by
  cases l with
  | nil => exact absurd rfl h
  | cons a t => simp [chunksRec]

/-- The chunks concatenate back to the original list. -/
theorem chunksRec_flatten {α : Type} :
    ∀ (m : ℕ) (l : List α), 0 < m → (chunksRec m l).flatten = l := by
  intro m l
  induction m, l using chunksRec.induct with
  | case1 m => intro _; simp [chunksRec]
  | case2 m a l ih =>
    intro hm
    have hd : l.drop (m - 1) = (a :: l).drop m := by
      obtain ⟨k, rfl⟩ : ∃ k, m = k + 1 := ⟨m - 1, by omega⟩
      simp
    rw [chunksRec]
    simp only [List.flatten_cons]
    rw [ih hm, hd, List.take_append_drop]

/-- Every chunk except possibly the last has length exactly `m`. -/
theorem chunksRec_dropLast_length {α : Type} :
    ∀ (m : ℕ) (l : List α), 0 < m →
      ∀ c ∈ (chunksRec m l).dropLast, c.length = m := by
  intro m l
  induction m, l using chunksRec.induct with
  | case1 m => intro _ c hc; simp [chunksRec] at hc
  | case2 m a l ih =>
    intro hm c hc
    rw [chunksRec] at hc
    cases hrest : chunksRec m (l.drop (m - 1)) with
    | nil => rw [hrest] at hc; simp at hc
    | cons r rs =>
      rw [hrest] at hc
      rw [List.dropLast_cons₂] at hc
      cases hc with
      | head =>
        have hne : l.drop (m - 1) ≠ [] := by
          intro hnil
          rw [hnil] at hrest
          simp [chunksRec] at hrest
        have hpos : 0 < (l.drop (m - 1)).length := List.length_pos.2 hne
        have hdl : (l.drop (m - 1)).length = l.length - (m - 1) := by simp
        rw [hdl] at hpos
        rw [List.length_take, List.length_cons]
        exact Nat.min_eq_left (by omega)
      | tail _ hmem =>
        exact ih hm c (by rw [hrest]; exact hmem)

/-- Every chunk is nonempty and no longer than `m`. -/
theorem chunksRec_mem_length {α : Type} :
    ∀ (m : ℕ) (l : List α), 0 < m →
      ∀ c ∈ chunksRec m l, c ≠ [] ∧ c.length ≤ m := by
  intro m l
  induction m, l using chunksRec.induct with
  | case1 m => intro _ c hc; simp [chunksRec] at hc
  | case2 m a l ih =>
    intro hm c hc
    rw [chunksRec] at hc
    cases hc with
    | head =>
      constructor
      · obtain ⟨k, rfl⟩ : ∃ k, m = k + 1 := ⟨m - 1, by omega⟩
        simp [List.take_cons]
      · exact List.length_take_le m (a :: l)
    | tail _ hmem => exact ih hm c hmem

/-- The last chunk has length `l.length % m`, except that it has length `m`
when `m` divides `l.length`. -/
theorem chunksRec_getLast_length {α : Type} :
    ∀ (m : ℕ) (l : List α), 0 < m → l ≠ [] →
      ∃ c, (chunksRec m l).getLast? = some c
        ∧ c.length = (if l.length % m = 0 then m else l.length % m) := by
  intro m l
  induction m, l using chunksRec.induct with
  | case1 m => intro _ hne; exact absurd rfl hne
  | case2 m a l ih =>
    intro hm _
    rw [chunksRec]
    cases hrest : chunksRec m (l.drop (m - 1)) with
    | nil =>
      have hdnil : l.drop (m - 1) = [] := by
        by_contra hne
        exact chunksRec_ne_nil m _ hne hrest
      have hlen : (a :: l).length ≤ m := by
        have hdl : (l.drop (m - 1)).length = l.length - (m - 1) := by simp
        rw [hdnil] at hdl
        simp only [List.length_nil] at hdl
        rw [List.length_cons]
        omega
      refine ⟨(a :: l).take m, by simp, ?_⟩
      have htk : ((a :: l).take m).length = (a :: l).length := by
        rw [List.length_take]
        exact Nat.min_eq_right hlen
      rw [htk]
      rcases Nat.lt_or_ge (a :: l).length m with hlt | hge
      · rw [Nat.mod_eq_of_lt hlt, if_neg (by simp)]
      · have heq : (a :: l).length = m := le_antisymm hlen hge
        rw [heq, Nat.mod_self, if_pos rfl]
    | cons r rs =>
      have hdne : l.drop (m - 1) ≠ [] := by
        intro hnil
        rw [hnil] at hrest
        simp [chunksRec] at hrest
      obtain ⟨c, hc1, hc2⟩ := ih hm hdne
      refine ⟨c, ?_, ?_⟩
      · rw [hrest] at hc1
        rw [List.getLast?_cons_cons]
        exact hc1
      · have hmod : (l.drop (m - 1)).length % m = (a :: l).length % m := by
          have hdl : (l.drop (m - 1)).length = l.length - (m - 1) := by simp
          have hpos : 0 < (l.drop (m - 1)).length := List.length_pos.2 hdne
          rw [hdl] at hpos
          have hsplit : (a :: l).length = (l.drop (m - 1)).length + m := by
            rw [List.length_cons, hdl]
            omega
          rw [hsplit, Nat.add_mod_right]
        rw [hc2, hmod]

/-! ## Claim C6 -/

/-- Claim C6: each epoch of `stochastic_gradient_descent` partitions the
(shuffled) training data into the consecutive slices
`training_data[k:k+mini_batch_size]` — they concatenate back to the data,
all but the last have length exactly `mini_batch_size`, and the last is
smaller exactly when the data size is not a multiple — runs `mini_batch_pass`
on each chunk in sequence, and only after all chunks does the extra forward
pass over every training sample, appending that epoch's mean per-sample cost
to `cost_points`. -/
theorem sgd_epoch_spec (e : ℚ → ℚ) (eta : ℚ) (m : ℕ)
    (data : List (Vec × Vec)) (net : Network) (hm : 0 < m) :
    (mini_batches m data).flatten = data
    ∧ (∀ c ∈ (mini_batches m data).dropLast, c.length = m)
    ∧ (∀ c ∈ mini_batches m data, c ≠ [] ∧ c.length ≤ m)
    ∧ (data ≠ [] → ∃ c, (mini_batches m data).getLast? = some c
        ∧ c.length = (if data.length % m = 0 then m else data.length % m))
    ∧ (∀ (net1 net2 : Network) (S : ℚ),
        runBatches e eta net (mini_batches m data) = .ok net1 →
        costLoop e net1 0 data = .ok (S, net2) →
        sgd_epoch e eta m data none net
          = .ok { net2 with cost_points :=
              net2.cost_points ++ [S / (data.length : ℚ)] }) := by
  have hmb := mini_batches_eq_chunksRec m data hm
  refine ⟨?_, ?_, ?_, ?_, ?_⟩
  · rw [hmb]; exact chunksRec_flatten m data hm
  · rw [hmb]; exact chunksRec_dropLast_length m data hm
  · rw [hmb]; exact chunksRec_mem_length m data hm
  · intro hne; rw [hmb]; exact chunksRec_getLast_length m data hm hne
  · intro net1 net2 S h1 h2
    simp [sgd_epoch, h1, h2]

/-- Three concrete one-dimensional training samples for `wNet`. -/
def wData : List (Vec × Vec) :=
  [(⟨1, fun _ => 1⟩, ⟨1, fun _ => 0⟩),
   (⟨1, fun _ => 2⟩, ⟨1, fun _ => 1⟩),
   (⟨1, fun _ => 3⟩, ⟨1, fun _ => 0⟩)]

/-- Witness for C6 at `wNet`, `wData` (3 samples), and mini-batch size 2. -/
theorem sgd_epoch_spec_witness :
    (mini_batches 2 wData).flatten = wData
    ∧ (∀ c ∈ (mini_batches 2 wData).dropLast, c.length = 2)
    ∧ (∀ c ∈ mini_batches 2 wData, c ≠ [] ∧ c.length ≤ 2)
    ∧ (wData ≠ [] → ∃ c, (mini_batches 2 wData).getLast? = some c
        ∧ c.length = (if wData.length % 2 = 0 then 2 else wData.length % 2))
    ∧ (∀ (net1 net2 : Network) (S : ℚ),
        runBatches (fun q => q) 1 wNet (mini_batches 2 wData) = .ok net1 →
        costLoop (fun q => q) net1 0 wData = .ok (S, net2) →
        sgd_epoch (fun q => q) 1 2 wData none wNet
          = .ok { net2 with cost_points :=
              net2.cost_points ++ [S / (wData.length : ℚ)] }) :=
  sgd_epoch_spec (fun q => q) 1 2 wData wNet (by decide)

/-! ## Claim C10 -/

/-- Claim C10: `mini_batch_pass` passes the actual sample count
`len(mini_batch)` to `update_parameters`; consequently, when the training-set
size is not a multiple of the nominal mini-batch size, the final chunk of the
epoch partition has length `n % m` — strictly smaller than `m` — and its
gradients are averaged over that actual length. -/
theorem update_uses_actual_batch_length (e : ℚ → ℚ) (eta : ℚ) (net : Network)
    (m : ℕ) (data : List (Vec × Vec)) (hm : 0 < m)
    (hnd : ¬ m ∣ data.length) :
    (∀ (mb : List (Vec × Vec)) (netF : Network),
        runSamples e net mb = .ok netF →
        net.mini_batch_pass e eta mb
          = .ok { netF with layers := updateLayers mb.length eta netF.layers })
    ∧ ∃ c, (mini_batches m data).getLast? = some c
        ∧ c.length = data.length % m ∧ c.length ≠ m := by
  constructor
  · intro mb netF h
    unfold Network.mini_batch_pass
    rw [h]
  · have hne : data ≠ [] := by
      intro h0
      rw [h0] at hnd
      exact hnd (dvd_zero m)
    have hmb := mini_batches_eq_chunksRec m data hm
    obtain ⟨c, hc1, hc2⟩ := chunksRec_getLast_length m data hm hne
    have hmodne : data.length % m ≠ 0 := by
      intro h0
      exact hnd (Nat.dvd_of_mod_eq_zero h0)
    have hlt : data.length % m < m := Nat.mod_lt data.length hm
    refine ⟨c, by rw [hmb]; exact hc1, ?_, ?_⟩
    · rw [hc2, if_neg hmodne]
    · rw [hc2, if_neg hmodne]
      omega

/-- Witness for C10 at `wNet`, `wData` (3 samples, not a multiple of 2). -/
theorem update_uses_actual_batch_length_witness :
    (∀ (mb : List (Vec × Vec)) (netF : Network),
        runSamples (fun q => q) wNet mb = .ok netF →
        wNet.mini_batch_pass (fun q => q) 1 mb
          = .ok { netF with layers := updateLayers mb.length 1 netF.layers })
    ∧ ∃ c, (mini_batches 2 wData).getLast? = some c
        ∧ c.length = wData.length % 2 ∧ c.length ≠ 2 :=
  update_uses_actual_batch_length (fun q => q) 1 wNet 2 wData (by decide) (by decide)

/-! ## Claim C9: the builder and the width-compatibility invariant -/

/-- Declared input width of a layer: `N_p` for a `FullyConnectedLayer` (its
weight matrix has `N_p` columns), the declared width `N` for the elementwise
layers (whose input and output widths coincide). -/
def Layer.inWidth : Layer → ℕ
  | .input st => st.N
  | .fc st => st.N_p
  | .sigmoid st => st.N
  | .relu st => st.N
  | .softmax st => st.N

/-- Declared output width of a layer: its declared size `N`. -/
def Layer.outWidth : Layer → ℕ
  | .input st => st.N
  | .fc st => st.N
  | .sigmoid st => st.N
  | .relu st => st.N
  | .softmax st => st.N

/-- The spec's invariant: each layer's declared input width equals the
previous layer's declared output width. -/
def widthsOK (layers : List Layer) : Prop :=
  List.Chain' (fun a b => Layer.inWidth b = Layer.outWidth a) layers

/-- One builder call (`add_fc_layer` carries the random draws). -/
inductive BuildStep where
  | fc (layer_size : ℕ) (W0 : ℕ → ℕ → ℚ) (B0 : ℕ → ℚ)
  | sigmoid (layer_size : ℕ)
  | relu (layer_size : ℕ)
  | softmax (layer_size : ℕ)

/-- Apply one builder call to a network. -/
def applyStep (net : Network) : BuildStep → Network
  | .fc n W0 B0 => net.add_fc_layer n W0 B0
  | .sigmoid n => net.add_sigmoid_layer n
  | .relu n => net.add_relu_layer n
  | .softmax n => net.add_softmax_layer n

/-- A network built by `Network.__init__` followed by a sequence of builder
calls. -/
def buildNetwork (input_size : ℕ) (cost : Vec → Vec → ℚ)
    (cost_prime : Vec → Vec → Vec) (is_SM_CE : Bool)
    (steps : List BuildStep) : Network :=
  steps.foldl applyStep (Network.init input_size cost cost_prime is_SM_CE)

/-- A builder script is width-consistent when every activation-layer call
passes exactly the current previous-layer size (`add_fc_layer` needs no
condition: the builder itself wires `N_p` to the running size). -/
def goodSteps : ℕ → List BuildStep → Prop
  | _, [] => True
  | _, (.fc n _ _) :: rest => goodSteps n rest
  | p, (.sigmoid n) :: rest => n = p ∧ goodSteps n rest
  | p, (.relu n) :: rest => n = p ∧ goodSteps n rest
  | p, (.softmax n) :: rest => n = p ∧ goodSteps n rest

/-- Appending a layer whose declared input width matches the last layer's
output width preserves the invariant. -/
theorem widthsOK_append (l : List Layer) (L : Layer)
    (h1 : widthsOK l)
    (h2 : ∀ x, l.getLast? = some x → Layer.inWidth L = Layer.outWidth x) :
    widthsOK (l ++ [L]) := by
  rw [widthsOK, List.chain'_append]
  refine ⟨h1, List.chain'_singleton L, ?_⟩
  intro x hx y hy
  simp only [List.head?_cons, Option.mem_def, Option.some.injEq] at hy
  subst hy
  exact h2 x (Option.mem_def.1 hx)

/-- Invariant carried through a width-consistent builder script: the layer
widths stay compatible and the running `prev_layer_size` is the last layer's
output width. -/
theorem buildSteps_widths (steps : List BuildStep) :
    ∀ (net : Network), widthsOK net.layers →
      (∃ L, net.layers.getLast? = some L
        ∧ Layer.outWidth L = net.prev_layer_size) →
      goodSteps net.prev_layer_size steps →
      widthsOK ((steps.foldl applyStep net).layers)
      ∧ ∃ L, (steps.foldl applyStep net).layers.getLast? = some L
          ∧ Layer.outWidth L = (steps.foldl applyStep net).prev_layer_size := by
  induction steps with
  | nil => intro net h1 h2 _; exact ⟨h1, h2⟩
  | cons s rest ih =>
    intro net h1 h2 h3
    obtain ⟨Llast, hL1, hL2⟩ := h2
    have step : widthsOK (applyStep net s).layers
        ∧ (∃ L, (applyStep net s).layers.getLast? = some L
            ∧ Layer.outWidth L = (applyStep net s).prev_layer_size)
        ∧ goodSteps (applyStep net s).prev_layer_size rest := by
      cases s with
      | fc n W0 B0 =>
        refine ⟨?_, ⟨_, List.getLast?_concat net.layers, rfl⟩, h3⟩
        apply widthsOK_append net.layers _ h1
        intro x hx
        rw [hL1] at hx
        cases hx
        rw [← hL2]
        rfl
      | sigmoid n =>
        obtain ⟨hn, hrest⟩ := h3
        refine ⟨?_, ⟨_, List.getLast?_concat net.layers, rfl⟩, hrest⟩
        apply widthsOK_append net.layers _ h1
        intro x hx
        rw [hL1] at hx
        cases hx
        show n = Llast.outWidth
        rw [hn]
        exact hL2.symm
      | relu n =>
        obtain ⟨hn, hrest⟩ := h3
        refine ⟨?_, ⟨_, List.getLast?_concat net.layers, rfl⟩, hrest⟩
        apply widthsOK_append net.layers _ h1
        intro x hx
        rw [hL1] at hx
        cases hx
        show n = Llast.outWidth
        rw [hn]
        exact hL2.symm
      | softmax n =>
        obtain ⟨hn, hrest⟩ := h3
        refine ⟨?_, ⟨_, List.getLast?_concat net.layers, rfl⟩, hrest⟩
        apply widthsOK_append net.layers _ h1
        intro x hx
        rw [hL1] at hx
        cases hx
        show n = Llast.outWidth
        rw [hn]
        exact hL2.symm
    exact ih (applyStep net s) step.1 step.2.1 step.2.2

/-- Claim C9, counterexample: the claim fails as stated.  Building a network
with input width 3 and then `add_sigmoid_layer(7)` (a legal builder sequence)
yields adjacent layers with declared widths 3 and 7: the builder establishes
the compatibility invariant only for `FullyConnectedLayer` (whose `N_p` it
wires itself), not for the activation layers, whose declared size comes
unchecked from the caller. -/
theorem builder_width_invariant_counterexample :
    ¬ widthsOK (buildNetwork 3 quadratic_cost quadratic_cost_prime false
        [BuildStep.sigmoid 7]).layers := by
  intro h
  have h2 := List.chain'_cons.1 h
  simp [Layer.inWidth, Layer.outWidth] at h2

/-- Claim C9 (amended): after any builder sequence in which every
`add_sigmoid_layer` / `add_relu_layer` / `add_softmax_layer` call passes the
current previous-layer size (no condition on `add_fc_layer`, whose input
width the builder wires itself), every layer's declared input width equals
the previous layer's declared output width. -/
theorem builder_width_invariant_amended (input_size : ℕ)
    (cost : Vec → Vec → ℚ) (cost_prime : Vec → Vec → Vec) (flag : Bool)
    (steps : List BuildStep)
    (hgood : goodSteps input_size steps) :
    widthsOK (buildNetwork input_size cost cost_prime flag steps).layers := by
  have h := buildSteps_widths steps (Network.init input_size cost cost_prime flag)
    (List.chain'_singleton _) ⟨_, rfl, rfl⟩ hgood
  exact h.1

/-- Witness for the amended C9 at the width-consistent concrete script
`input(3) → fc(4) → sigmoid(4) → fc(2) → softmax(2)`. -/
theorem builder_width_invariant_amended_witness :
    widthsOK (buildNetwork 3 quadratic_cost quadratic_cost_prime false
      [BuildStep.fc 4 (fun _ _ => 1) (fun _ => 0), BuildStep.sigmoid 4,
       BuildStep.fc 2 (fun _ _ => 1) (fun _ => 0), BuildStep.softmax 2]).layers :=
  builder_width_invariant_amended 3 quadratic_cost quadratic_cost_prime false
    [BuildStep.fc 4 (fun _ _ => 1) (fun _ => 0), BuildStep.sigmoid 4,
     BuildStep.fc 2 (fun _ _ => 1) (fun _ => 0), BuildStep.softmax 2]
    ⟨rfl, rfl, trivial⟩

end NNFS
